import Mathlib

/-!
Shallow embedding of the gache ring buffer (Go package `ring`, file
src/pkg/ring/buffer.go) and of the draft variant of the same file
(src/unnamed/part_000), together with proofs settling the specification
claims against them.

Modeling conventions: Go byte slices are `List Nat`, Go `int` values are
`Nat` (`Int` where a negative value is meaningful), Go runtime panics
(out-of-bounds slicing, division by zero) are `none` in an `Option`-valued
result, and slices are modeled with capacity equal to length. Functions that
mutate their receiver return the new receiver state explicitly; error
returns carry the receiver state so that non-mutation on error is a provable
statement rather than a modeling artifact.
-/

set_option linter.unusedVariables false

namespace Gache

/-- Error sentinels of package ring (`errors.New` values
`InsufficientBufferSpace` and `BufferrOutOfRange`). -/
inductive Err where
  | insufficientBufferSpace
  | bufferrOutOfRange
deriving DecidableEq

/-- Go global `BlockHeaderLenSize = 8`: length of the block-length header. -/
def BlockHeaderLenSize : Nat := 8

/-- Go `copy(dst, src)`: overwrites the first `min |dst| |src|` elements of
`dst` with those of `src`; the result is the new contents of `dst`. -/
def goCopy (dst src : List Nat) : List Nat :=
  src.take dst.length ++ dst.drop (min dst.length src.length)

/-- Go `copy(buf[p:], src)` seen from the whole backing array `buf`
(meaningful when `p ≤ buf.length`). -/
def writeCopy (buf : List Nat) (p : Nat) (src : List Nat) : List Nat :=
  buf.take p ++ goCopy (buf.drop p) src

/-- Number of positions at which two equal-length buffers differ. -/
def diffCount (xs ys : List Nat) : Nat :=
  ((xs.zip ys).filter (fun p => p.1 != p.2)).length

/-- Little-endian byte decomposition of `n`, `w` bytes wide; mirrors
`binary.LittleEndian.PutUint64` (for `w = 8`, with Go's implicit
`uint64` truncation appearing as `% 2 ^ 64` in the value read back). -/
def putLE : Nat → Nat → List Nat
  | 0, _ => []
  | w + 1, n => n % 256 :: putLE w (n / 256)

/-- Value of a little-endian byte list. -/
def fromLE (bs : List Nat) : Nat :=
  bs.foldr (fun b acc => acc * 256 + b) 0

namespace Ring

/-- Block of src/pkg/ring/buffer.go lines 99-106: declared component lengths,
the packed bytes, and a creation timestamp. -/
structure Block where
  hashedKeyLen : Nat
  rawKeyLen : Nat
  dataLen : Nat
  AllData : List Nat
  CreatedAt : Int
deriving DecidableEq

/-- Len (buffer.go lines 110-113): declared length of the block; `CreatedAt`
is not counted. -/
def Block.Len (b : Block) : Nat :=
  b.hashedKeyLen + b.rawKeyLen + b.dataLen

/-- RingBuffer of src/pkg/ring/buffer.go lines 14-30. The two index maps are
Go nil maps, modeled as `Option` association lists whose `none` is nil. -/
structure RingBuffer where
  buffer : List Nat
  size : Nat
  currPosition : Nat
  blockIdx : Option (List (Nat × Nat))
  timeIdx : Option (List (Int × Nat))
deriving DecidableEq

/-- NewRingBuffer (buffer.go lines 33-39): `make([]byte, size)` panics for a
negative size (modeled `none`); there is no capacity validation, and the
index map fields keep their nil zero value. -/
def NewRingBuffer (size : Int) : Option RingBuffer :=
  if size < 0 then none
  else some { buffer := List.replicate size.toNat 0, size := size.toNat,
              currPosition := 0, blockIdx := none, timeIdx := none }

/-- Add (buffer.go lines 44-73), embedded with Go operator precedence: the
source line `targetPos := r.currPosition + blockLen%r.size` parses as
`r.currPosition + (blockLen % r.size)`. Runtime panics (`% 0` on a zero-size
buffer, out-of-bounds slicing) are `none`. -/
def Add (r : RingBuffer) (block : Block) : Option (RingBuffer × Option Err) :=
  let blockLen := block.Len
  if blockLen > r.size then some (r, some Err.insufficientBufferSpace)
  else if r.size = 0 then none
  else
    let targetPos := r.currPosition + blockLen % r.size
    if targetPos < r.currPosition then
      if r.currPosition ≤ r.buffer.length ∧ r.size - r.currPosition ≤ block.AllData.length then
        let buf1 := writeCopy r.buffer r.currPosition
          (block.AllData.take (r.size - r.currPosition))
        some ({ r with
                buffer := writeCopy buf1 0 (block.AllData.drop (r.size - r.currPosition)),
                currPosition := targetPos }, none)
      else none
    else
      if r.currPosition ≤ r.buffer.length then
        some ({ r with
                buffer := writeCopy r.buffer r.currPosition block.AllData,
                currPosition := targetPos }, none)
      else none

/-- Get (buffer.go lines 76-95): the only range check is `index > r.size`;
returns the filled `b.AllData`. The receiver is not mutated, which the
signature makes explicit by not returning a state. -/
def Get (r : RingBuffer) (index dataSize : Nat) : Option (Except Err (List Nat)) :=
  if index > r.size then some (Except.error Err.bufferrOutOfRange)
  else
    let allData := List.replicate dataSize 0
    if index + dataSize > r.size then
      if index ≤ r.buffer.length then
        let part1 := goCopy allData (r.buffer.drop index)
        if r.size - index ≤ dataSize ∧ dataSize - (r.size - index) ≤ r.buffer.length then
          some (Except.ok (writeCopy part1 (r.size - index)
            (r.buffer.take (dataSize - (r.size - index)))))
        else none
      else none
    else
      if index + dataSize ≤ r.buffer.length then
        some (Except.ok (goCopy allData ((r.buffer.take (index + dataSize)).drop index)))
      else none

/-- Reachable states of a buffer.go ring buffer: a constructed buffer, and
anything an `Add` call that returns (rather than panics) produces from one.
`Get` takes no state transition since it never mutates the receiver. -/
inductive Reachable : RingBuffer → Prop where
  | base (c : Int) (r : RingBuffer) : NewRingBuffer c = some r → Reachable r
  | step (r : RingBuffer) (b : Block) (r2 : RingBuffer) (e : Option Err) :
      Reachable r → Add r b = some (r2, e) → Reachable r2

end Ring

namespace Draft

/-- RingBuffer of src/unnamed/part_000 lines 16-33 (adds `tempoPosition`). -/
structure RingBuffer where
  buffer : List Nat
  size : Nat
  currPosition : Nat
  tempoPosition : Nat
  blockIdx : Option (List (Nat × Nat))
  timeIdx : Option (List (Int × Nat))
deriving DecidableEq

/-- NewRingBuffer (part_000 lines 36-42); omitted fields get Go zero values. -/
def NewRingBuffer (size : Int) : Option RingBuffer :=
  if size < 0 then none
  else some { buffer := List.replicate size.toNat 0, size := size.toNat,
              currPosition := 0, tempoPosition := 0, blockIdx := none, timeIdx := none }

/-- write (part_000 lines 44-73): counts `BlockHeaderLenSize` into `dataLen`
(hence into the space check and the cursor advance) but copies only `data`
itself. The error path returns before any mutation; panics are `none`. The
`% r.size` never divides by zero because `dataLen ≥ 8 > 0` forces the
insufficient-space return when `r.size = 0`. -/
def write (r : RingBuffer) (data : List Nat) : Option (RingBuffer × Except Err Nat) :=
  let dataLen := data.length + BlockHeaderLenSize
  if dataLen > r.size then some (r, Except.error Err.insufficientBufferSpace)
  else
    let targetPos := (r.currPosition + dataLen) % r.size
    if targetPos < r.currPosition then
      if r.currPosition ≤ r.buffer.length ∧ r.size - r.currPosition ≤ data.length then
        let buf1 := writeCopy r.buffer r.currPosition (data.take (r.size - r.currPosition))
        some ({ r with
                buffer := writeCopy buf1 0 (data.drop (r.size - r.currPosition)),
                currPosition := targetPos }, Except.ok dataLen)
      else none
    else
      if r.currPosition ≤ r.buffer.length then
        some ({ r with
                buffer := writeCopy r.buffer r.currPosition data,
                currPosition := targetPos }, Except.ok dataLen)
      else none

/-- Write (part_000 lines 76-101): writes an 8-byte little-endian length
header with one internal `write` call, then the payload with a second, and
reports `totalLen = len(b) + BlockHeaderLenSize` on success. -/
def Write (r : RingBuffer) (b : List Nat) : Option (RingBuffer × Except Err Nat) :=
  let blockLen := b.length
  let totalLen := blockLen + BlockHeaderLenSize
  if totalLen > r.size then some (r, Except.error Err.insufficientBufferSpace)
  else
    match write r (putLE 8 blockLen) with
    | none => none
    | some (r1, Except.error e) => some (r1, Except.error e)
    | some (r1, Except.ok _) =>
      match write r1 b with
      | none => none
      | some (r2, Except.error e) => some (r2, Except.error e)
      | some (r2, Except.ok _) => some (r2, Except.ok totalLen)

/-- Reachable draft states under construction, `write` and `Write` (the
draft's `Add` feeds gob bytes through `Write`, so its state effect is a
sequence of `Write` calls; `Get` does not mutate). -/
inductive Reachable : RingBuffer → Prop where
  | base (c : Int) (r : RingBuffer) : NewRingBuffer c = some r → Reachable r
  | stepw (r : RingBuffer) (d : List Nat) (r2 : RingBuffer) (e : Except Err Nat) :
      Reachable r → write r d = some (r2, e) → Reachable r2
  | stepW (r : RingBuffer) (b : List Nat) (r2 : RingBuffer) (e : Except Err Nat) :
      Reachable r → Write r b = some (r2, e) → Reachable r2

end Draft

/-- Modelled from the spec: the Block Codec's `encode` (spec section 4.1) is
absent from src — the draft has only a single-length-prefix `Write` and a
gob-based `Add`, and spec section 9 adopts the fixed multi-field header as
canonical. Header: three fixed-width little-endian unsigned fields — total
payload length, creation timestamp, key length — each of the codebase's
fixed width `BlockHeaderLenSize = 8`, followed by key bytes then value
bytes. -/
def encode (key value : List Nat) (createdAt : Nat) : List Nat :=
  putLE 8 (key.length + value.length) ++ putLE 8 createdAt ++ putLE 8 key.length
    ++ key ++ value

/-! Helper lemmas about the byte-copy primitives. -/

theorem goCopy_length (dst src : List Nat) : (goCopy dst src).length = dst.length := by
  simp [goCopy]

theorem writeCopy_length (buf : List Nat) (p : Nat) (src : List Nat) (hp : p ≤ buf.length) :
    (writeCopy buf p src).length = buf.length := by
  simp [writeCopy, goCopy_length]
  omega

theorem goCopy_of_le (dst src : List Nat) (h : src.length ≤ dst.length) :
    goCopy dst src = src ++ dst.drop src.length := by
  rw [goCopy, List.take_of_length_le h, Nat.min_eq_right h]

theorem goCopy_of_ge (dst src : List Nat) (h : dst.length ≤ src.length) :
    goCopy dst src = src.take dst.length := by
  rw [goCopy, Nat.min_eq_left h, List.drop_length, List.append_nil]

theorem diffCount_cons (x y : Nat) (a b : List Nat) :
    diffCount (x :: a) (y :: b) = (if x = y then 0 else 1) + diffCount a b := by
  rcases eq_or_ne x y with h | h <;> simp [diffCount, List.filter_cons, h] <;> omega

theorem diffCount_self (a : List Nat) : diffCount a a = 0 := by
  induction a with
  | nil => rfl
  | cons x a ih => simp [diffCount_cons, ih]

theorem diffCount_append (a a2 b b2 : List Nat) (h : a.length = a2.length) :
    diffCount (a ++ b) (a2 ++ b2) = diffCount a a2 + diffCount b b2 := by
  induction a generalizing a2 with
  | nil =>
    cases a2 with
    | nil => simp [diffCount]
    | cons y a2 => simp at h
  | cons x a ih =>
    cases a2 with
    | nil => simp at h
    | cons y a2 =>
      have h2 : a.length = a2.length := by simpa using h
      simp only [List.cons_append, diffCount_cons, ih a2 h2]
      omega

theorem diffCount_le (a b : List Nat) : diffCount a b ≤ min a.length b.length := by
  have h1 := List.length_filter_le (fun p => p.1 != p.2) (a.zip b)
  have h2 := List.length_zip a b
  rw [diffCount]
  omega

theorem diffCount_triangle (a b c : List Nat) (hab : a.length = b.length) :
    diffCount a c ≤ diffCount a b + diffCount b c := by
  induction a generalizing b c with
  | nil => simp [diffCount]
  | cons x a ih =>
    cases b with
    | nil => simp at hab
    | cons y b =>
      cases c with
      | nil => simp [diffCount]
      | cons z c =>
        have h2 : a.length = b.length := by simpa using hab
        have hrec := ih b c h2
        rw [diffCount_cons, diffCount_cons, diffCount_cons]
        have key : (if x = z then 0 else 1) ≤ (if x = y then 0 else 1) + (if y = z then 0 else 1) := by
          rcases eq_or_ne x y with h3 | h3 <;> rcases eq_or_ne y z with h4 | h4 <;>
            simp [h3, h4] <;> split <;> omega
        generalize (if x = z then 0 else 1) = u at key
        generalize (if x = y then 0 else 1) = v at key
        generalize (if y = z then 0 else 1) = w at key
        omega

theorem diffCount_goCopy (d src : List Nat) : diffCount d (goCopy d src) ≤ src.length := by
  rcases Nat.le_total src.length d.length with h | h
  · rw [goCopy_of_le d src h]
    have hd := List.take_append_drop src.length d
    have hlen : (d.take src.length).length = src.length := by simp; omega
    calc diffCount d (src ++ d.drop src.length)
        = diffCount (d.take src.length ++ d.drop src.length) (src ++ d.drop src.length) := by
          rw [hd]
      _ = diffCount (d.take src.length) src + diffCount (d.drop src.length) (d.drop src.length) :=
          diffCount_append _ _ _ _ (by rw [hlen])
      _ = diffCount (d.take src.length) src := by rw [diffCount_self, Nat.add_zero]
      _ ≤ src.length := le_trans (diffCount_le _ _) (Nat.min_le_right _ _)
  · rw [goCopy_of_ge d src h]
    exact le_trans (diffCount_le _ _) (le_trans (Nat.min_le_left _ _) h)

theorem diffCount_writeCopy (buf : List Nat) (p : Nat) (src : List Nat) :
    diffCount buf (writeCopy buf p src) ≤ src.length := by
  have hd := List.take_append_drop p buf
  calc diffCount buf (writeCopy buf p src)
      = diffCount (buf.take p ++ buf.drop p) (buf.take p ++ goCopy (buf.drop p) src) := by
        rw [hd, writeCopy]
    _ = diffCount (buf.take p) (buf.take p) + diffCount (buf.drop p) (goCopy (buf.drop p) src) :=
        diffCount_append _ _ _ _ rfl
    _ = diffCount (buf.drop p) (goCopy (buf.drop p) src) := by rw [diffCount_self, Nat.zero_add]
    _ ≤ src.length := diffCount_goCopy _ _

theorem goCopy_eq_src (dst src : List Nat) (h : dst.length = src.length) :
    goCopy dst src = src := by
  rw [goCopy_of_ge dst src (by omega), h, List.take_length]

theorem writeCopy_append_left (a b src : List Nat) (p : Nat) (hp : p = a.length)
    (h : src.length = b.length) : writeCopy (a ++ b) p src = a ++ src := by
  rw [writeCopy, hp, List.take_left, List.drop_left, goCopy_eq_src b src h.symm]

theorem getElem?_writeCopy_low (buf : List Nat) (p : Nat) (src : List Nat) (i : Nat)
    (hp : p ≤ buf.length) (h : i < p) : (writeCopy buf p src)[i]? = buf[i]? := by
  have htl : (buf.take p).length = p := by simp; omega
  rw [writeCopy, List.getElem?_append_left (by rw [htl]; exact h),
    List.getElem?_take_of_lt h]

theorem getElem?_writeCopy_high (buf : List Nat) (p : Nat) (src : List Nat) (i : Nat)
    (hp : p ≤ buf.length) (h : p + src.length ≤ i) :
    (writeCopy buf p src)[i]? = buf[i]? := by
  have htl : (buf.take p).length = p := by simp; omega
  have hkey : (src.take (buf.drop p).length).length = min (buf.length - p) src.length := by
    simp [Nat.min_comm]
  rw [writeCopy, goCopy, List.getElem?_append_right (by omega), htl,
    List.getElem?_append_right (by rw [hkey]; omega), hkey, List.length_drop,
    List.getElem?_drop, List.getElem?_drop]
  congr 1
  omega

/-! Helper lemmas about the little-endian codec primitives. -/

theorem putLE_length (w n : Nat) : (putLE w n).length = w := by
  induction w generalizing n with
  | zero => rfl
  | succ w ih => simp [putLE, ih]

theorem fromLE_putLE (w n : Nat) : fromLE (putLE w n) = n % 256 ^ w := by
  induction w generalizing n with
  | zero => simp [putLE, fromLE, Nat.mod_one]
  | succ w ih =>
    have : fromLE (putLE (w + 1) n) = fromLE (putLE w (n / 256)) * 256 + n % 256 := by
      simp [putLE, fromLE]
    rw [this, ih, Nat.pow_succ', Nat.mod_mul, Nat.mul_comm, Nat.add_comm]

theorem putLE_mem_lt (w n : Nat) : ∀ b ∈ putLE w n, b < 256 := by
  induction w generalizing n with
  | zero => simp [putLE]
  | succ w ih =>
    intro b hb
    rw [putLE] at hb
    rcases List.mem_cons.mp hb with h | h
    · rw [h]; exact Nat.mod_lt _ (by omega)
    · exact ih (n / 256) b h

/-! Characterization lemmas for the buffer.go operations. -/

namespace Ring

theorem Add_state (r : RingBuffer) (b : Block) (r1 : RingBuffer) (e : Option Err)
    (h : Add r b = some (r1, e)) :
    r1.size = r.size ∧ r1.blockIdx = r.blockIdx ∧ r1.timeIdx = r.timeIdx := by
  simp only [Add] at h
  split at h
  · simp only [Option.some.injEq, Prod.mk.injEq] at h
    obtain ⟨rfl, rfl⟩ := h
    exact ⟨rfl, rfl, rfl⟩
  · split at h
    · cases h
    · split at h
      · split at h
        · simp only [Option.some.injEq, Prod.mk.injEq] at h
          obtain ⟨rfl, rfl⟩ := h
          exact ⟨rfl, rfl, rfl⟩
        · cases h
      · split at h
        · simp only [Option.some.injEq, Prod.mk.injEq] at h
          obtain ⟨rfl, rfl⟩ := h
          exact ⟨rfl, rfl, rfl⟩
        · cases h

theorem Add_error (r : RingBuffer) (b : Block) (r1 : RingBuffer) (e : Err)
    (h : Add r b = some (r1, some e)) :
    r1 = r ∧ e = Err.insufficientBufferSpace ∧ r.size < b.Len := by
  simp only [Add] at h
  split at h
  · rename_i hgt
    simp only [Option.some.injEq, Prod.mk.injEq, Option.some.injEq] at h
    exact ⟨h.1.symm, h.2.symm, by omega⟩
  · split at h
    · cases h
    · split at h
      · split at h
        · simp at h
        · cases h
      · split at h
        · simp at h
        · cases h

end Ring

/-! Characterization lemmas for the draft file operations. -/

namespace Draft

theorem write_error (r : RingBuffer) (d : List Nat) (r1 : RingBuffer) (e : Err)
    (h : write r d = some (r1, Except.error e)) :
    r1 = r ∧ e = Err.insufficientBufferSpace ∧ r.size < d.length + 8 := by
  simp only [write, BlockHeaderLenSize] at h
  split at h
  · rename_i hgt
    simp only [Option.some.injEq, Prod.mk.injEq, Except.error.injEq] at h
    exact ⟨h.1.symm, h.2.symm, by omega⟩
  · split at h
    · split at h
      · simp at h
      · cases h
    · split at h
      · simp at h
      · cases h

theorem write_ok (r : RingBuffer) (d : List Nat) (r1 : RingBuffer) (m : Nat)
    (h : write r d = some (r1, Except.ok m)) :
    m = d.length + 8 ∧ d.length + 8 ≤ r.size ∧
    r1.currPosition = (r.currPosition + (d.length + 8)) % r.size ∧
    r1.size = r.size ∧ r1.tempoPosition = r.tempoPosition ∧
    r1.blockIdx = r.blockIdx ∧ r1.timeIdx = r.timeIdx ∧
    r1.buffer.length = r.buffer.length ∧
    diffCount r.buffer r1.buffer ≤ d.length ∧
    (r.currPosition + (d.length + 8) ≤ r.size →
      ∀ i, i < r.currPosition ∨ r.currPosition + d.length ≤ i →
        r1.buffer[i]? = r.buffer[i]?) := by
  simp only [write, BlockHeaderLenSize] at h
  split at h
  · simp at h
  · rename_i hle
    split at h
    · rename_i hwrap
      split at h
      · rename_i hg
        obtain ⟨hg1, hg2⟩ := hg
        simp only [Option.some.injEq, Prod.mk.injEq, Except.ok.injEq] at h
        obtain ⟨rfl, rfl⟩ := h
        refine ⟨rfl, by omega, rfl, rfl, rfl, rfl, rfl, ?_, ?_, ?_⟩
        · show (writeCopy (writeCopy r.buffer r.currPosition _) 0 _).length = r.buffer.length
          rw [writeCopy_length _ 0 _ (Nat.zero_le _), writeCopy_length _ _ _ hg1]
        · show diffCount r.buffer
              (writeCopy (writeCopy r.buffer r.currPosition (d.take (r.size - r.currPosition))) 0
                (d.drop (r.size - r.currPosition))) ≤ d.length
          have hlen1 : r.buffer.length =
              (writeCopy r.buffer r.currPosition (d.take (r.size - r.currPosition))).length :=
            (writeCopy_length _ _ _ hg1).symm
          refine le_trans (diffCount_triangle _ _ _ hlen1) ?_
          have d1 := diffCount_writeCopy r.buffer r.currPosition
            (d.take (r.size - r.currPosition))
          have d2 := diffCount_writeCopy
            (writeCopy r.buffer r.currPosition (d.take (r.size - r.currPosition))) 0
            (d.drop (r.size - r.currPosition))
          have l1 : (d.take (r.size - r.currPosition)).length = r.size - r.currPosition := by
            simp
            omega
          have l2 : (d.drop (r.size - r.currPosition)).length =
              d.length - (r.size - r.currPosition) := by simp
          omega
        · intro hsc
          exfalso
          omega
      · cases h
    · rename_i hnw
      split at h
      · rename_i hcb
        simp only [Option.some.injEq, Prod.mk.injEq, Except.ok.injEq] at h
        obtain ⟨rfl, rfl⟩ := h
        refine ⟨rfl, by omega, rfl, rfl, rfl, rfl, rfl,
          writeCopy_length _ _ _ hcb, diffCount_writeCopy _ _ _, ?_⟩
        intro hsc i hi
        rcases hi with hi | hi
        · exact getElem?_writeCopy_low _ _ _ _ hcb hi
        · exact getElem?_writeCopy_high _ _ _ _ hcb (by omega)
      · cases h

theorem Write_error (r : RingBuffer) (p : List Nat) (r1 : RingBuffer) (e : Err)
    (h : Write r p = some (r1, Except.error e)) :
    r1 = r ∧ e = Err.insufficientBufferSpace := by
  simp only [Write, BlockHeaderLenSize] at h
  split at h
  · simp only [Option.some.injEq, Prod.mk.injEq, Except.error.injEq] at h
    exact ⟨h.1.symm, h.2.symm⟩
  · rename_i hle
    cases hw1 : write r (putLE 8 p.length) with
    | none => rw [hw1] at h; cases h
    | some pr =>
      obtain ⟨ra, ea⟩ := pr
      rw [hw1] at h
      cases ea with
      | error e1 =>
        simp only [Option.some.injEq, Prod.mk.injEq, Except.error.injEq] at h
        obtain ⟨rfl, rfl⟩ := h
        obtain ⟨rfl, he, _⟩ := write_error _ _ _ _ hw1
        exact ⟨rfl, he⟩
      | ok m1 =>
        simp only [] at h
        cases hw2 : write ra p with
        | none => rw [hw2] at h; cases h
        | some pr2 =>
          obtain ⟨rb, eb⟩ := pr2
          rw [hw2] at h
          cases eb with
          | error e2 =>
            exfalso
            obtain ⟨_, _, hsz⟩ := write_error _ _ _ _ hw2
            obtain ⟨_, _, _, hra, _⟩ := write_ok _ _ _ _ hw1
            omega
          | ok m2 => simp at h

theorem Write_state (r : RingBuffer) (p : List Nat) (r1 : RingBuffer) (e : Except Err Nat)
    (h : Write r p = some (r1, e)) :
    r1.size = r.size ∧ r1.blockIdx = r.blockIdx ∧ r1.timeIdx = r.timeIdx := by
  simp only [Write, BlockHeaderLenSize] at h
  split at h
  · simp only [Option.some.injEq, Prod.mk.injEq] at h
    obtain ⟨rfl, rfl⟩ := h
    exact ⟨rfl, rfl, rfl⟩
  · cases hw1 : write r (putLE 8 p.length) with
    | none => rw [hw1] at h; cases h
    | some pr =>
      obtain ⟨ra, ea⟩ := pr
      rw [hw1] at h
      cases ea with
      | error e1 =>
        simp only [Option.some.injEq, Prod.mk.injEq] at h
        obtain ⟨rfl, rfl⟩ := h
        obtain ⟨rfl, _, _⟩ := write_error _ _ _ _ hw1
        exact ⟨rfl, rfl, rfl⟩
      | ok m1 =>
        simp only [] at h
        cases hw2 : write ra p with
        | none => rw [hw2] at h; cases h
        | some pr2 =>
          obtain ⟨rb, eb⟩ := pr2
          rw [hw2] at h
          have W1 := write_ok _ _ _ _ hw1
          cases eb with
          | error e2 =>
            simp only [Option.some.injEq, Prod.mk.injEq] at h
            obtain ⟨rfl, rfl⟩ := h
            obtain ⟨rfl, _, _⟩ := write_error _ _ _ _ hw2
            exact ⟨W1.2.2.2.1, W1.2.2.2.2.2.1, W1.2.2.2.2.2.2.1⟩
          | ok m2 =>
            simp only [Option.some.injEq, Prod.mk.injEq] at h
            obtain ⟨rfl, rfl⟩ := h
            have W2 := write_ok _ _ _ _ hw2
            refine ⟨?_, ?_, ?_⟩
            · rw [W2.2.2.2.1, W1.2.2.2.1]
            · rw [W2.2.2.2.2.2.1, W1.2.2.2.2.2.1]
            · rw [W2.2.2.2.2.2.2.1, W1.2.2.2.2.2.2.1]

end Draft

end Gache

/-! Claim theorems. -/

/-- C1: the claim says an append of a payload p with 0 < len p ≤ C onto a
store with cursor head writes contiguously at [head, head+len p) when
head + len p ≤ C, otherwise splits it C - head / rest across the boundary,
and always ends with cursor (head + len p) % C. In buffer.go `Add` the line
`targetPos := r.currPosition + blockLen%r.size` parses as
`currPosition + (blockLen % size)`, so the wrap branch promised by the
function's own comments is unreachable: at capacity 4, cursor 2, a length-3
block [7,8,9] has only its first two bytes written at positions 2 and 3, the
byte 9 is dropped instead of wrapping to position 0, and the cursor becomes
5 = 2 + 3 rather than (2 + 3) % 4 = 1 — it is not even below capacity. -/
theorem C1_add_never_wraps :
    Gache.Ring.Add ⟨[0, 0, 0, 0], 4, 2, none, none⟩ ⟨3, 0, 0, [7, 8, 9], 0⟩
      = some (⟨[0, 0, 7, 8], 4, 5, none, none⟩, none) ∧
    (5 : Nat) ≠ (2 + 3) % 4 ∧ ¬ ((5 : Nat) < 4) :=
  ⟨rfl, by decide, by decide⟩

/-- C2: the claim says the write cursor satisfies 0 ≤ head < C after every
operation of any construction-plus-appends sequence with payload lengths at
most C. Because of the precedence slip in buffer.go `Add` (see C1) the
cursor is advanced to `currPosition + (blockLen % size)` without a final
modulus, so two appends of length-3 blocks into a capacity-4 buffer leave
the cursor at 6, outside [0, 4). -/
theorem C2_cursor_exceeds_capacity :
    Gache.Ring.NewRingBuffer 4 = some ⟨[0, 0, 0, 0], 4, 0, none, none⟩ ∧
    Gache.Ring.Add ⟨[0, 0, 0, 0], 4, 0, none, none⟩ ⟨3, 0, 0, [1, 2, 3], 0⟩
      = some (⟨[1, 2, 3, 0], 4, 3, none, none⟩, none) ∧
    Gache.Ring.Add ⟨[1, 2, 3, 0], 4, 3, none, none⟩ ⟨3, 0, 0, [1, 2, 3], 0⟩
      = some (⟨[1, 2, 3, 1], 4, 6, none, none⟩, none) ∧
    ¬ ((6 : Nat) < 4) :=
  ⟨rfl, rfl, rfl, by decide⟩

/-- C4: an append fails with InsufficientSpace exactly when the frame length
exceeds the capacity, for buffer.go `Add` (frame length `Block.Len`) and for
the draft's raw `write` (frame length `len(data) + BlockHeaderLenSize`). The
condition depends only on the frame length and the fixed `size`, never on
the cursor — the equivalence is quantified over every receiver state, so a
retry with the same inputs on the same-capacity store fails identically. -/
theorem C4_insufficient_iff_oversized (r : Gache.Ring.RingBuffer) (b : Gache.Ring.Block)
    (rd : Gache.Draft.RingBuffer) (d : List Nat) :
    ((∃ r1, Gache.Ring.Add r b = some (r1, some Gache.Err.insufficientBufferSpace)) ↔
      r.size < b.Len) ∧
    ((∃ rd1, Gache.Draft.write rd d
        = some (rd1, Except.error Gache.Err.insufficientBufferSpace)) ↔
      rd.size < d.length + Gache.BlockHeaderLenSize) := by
  constructor
  · constructor
    · rintro ⟨r1, h⟩
      exact (Gache.Ring.Add_error _ _ _ _ h).2.2
    · intro h
      refine ⟨r, ?_⟩
      simp only [Gache.Ring.Add]
      rw [if_pos h]
  · constructor
    · rintro ⟨rd1, h⟩
      have h2 := (Gache.Draft.write_error _ _ _ _ h).2.2
      simpa [Gache.BlockHeaderLenSize] using h2
    · intro h
      refine ⟨rd, ?_⟩
      simp only [Gache.Draft.write, Gache.BlockHeaderLenSize] at h ⊢
      rw [if_pos (by omega)]

/-- C4 witness: a length-3 block rejected by a capacity-2 store. -/
theorem C4_witness : (2 : Nat) < 3 :=
  (C4_insufficient_iff_oversized ⟨[0, 0], 2, 0, none, none⟩ ⟨3, 0, 0, [1, 2, 3], 0⟩
    ⟨[], 0, 0, 0, none, none⟩ []).1.mp ⟨⟨[0, 0], 2, 0, none, none⟩, rfl⟩

/-- C5: a write rejected with InsufficientSpace leaves the store state
entirely unchanged — the returned receiver equals the prior one, so cursor,
buffer bytes and both index map fields all keep their values — both for
buffer.go `Add` and for the draft's header-framing `Write`. -/
theorem C5_rejected_write_leaves_state (r : Gache.Ring.RingBuffer) (b : Gache.Ring.Block)
    (r1 : Gache.Ring.RingBuffer) (rd : Gache.Draft.RingBuffer) (p : List Nat)
    (rd1 : Gache.Draft.RingBuffer) :
    (Gache.Ring.Add r b = some (r1, some Gache.Err.insufficientBufferSpace) → r1 = r) ∧
    (Gache.Draft.Write rd p = some (rd1, Except.error Gache.Err.insufficientBufferSpace) →
      rd1 = rd) :=
  ⟨fun h => (Gache.Ring.Add_error _ _ _ _ h).1,
   fun h => (Gache.Draft.Write_error _ _ _ _ h).1⟩

/-- C5 witness: concrete oversized writes on both implementations. -/
theorem C5_witness :
    (⟨[0, 0], 2, 0, none, none⟩ : Gache.Ring.RingBuffer) = ⟨[0, 0], 2, 0, none, none⟩ ∧
    (⟨[0, 0], 2, 1, 0, none, none⟩ : Gache.Draft.RingBuffer) = ⟨[0, 0], 2, 1, 0, none, none⟩ :=
  ⟨(C5_rejected_write_leaves_state ⟨[0, 0], 2, 0, none, none⟩ ⟨3, 0, 0, [1, 2, 3], 0⟩
      ⟨[0, 0], 2, 0, none, none⟩ ⟨[0, 0], 2, 1, 0, none, none⟩ [1, 2, 3]
      ⟨[0, 0], 2, 1, 0, none, none⟩).1 rfl,
   (C5_rejected_write_leaves_state ⟨[0, 0], 2, 0, none, none⟩ ⟨3, 0, 0, [1, 2, 3], 0⟩
      ⟨[0, 0], 2, 0, none, none⟩ ⟨[0, 0], 2, 1, 0, none, none⟩ [1, 2, 3]
      ⟨[0, 0], 2, 1, 0, none, none⟩).2 rfl⟩

/-- C6: for offset < capacity and length ≤ capacity (on a buffer whose
backing array has exactly `size` bytes), `Get` returns exactly the
contiguous bytes [offset, offset+length) when they fit, and otherwise the
concatenation of [offset, capacity) with [0, offset+length-capacity); it
consults nothing but the byte region and the capacity (see C10 for the
congruence part) and returns no new state. -/
theorem C6_get_wraparound (r : Gache.Ring.RingBuffer) (offset len : Nat)
    (hlen : r.buffer.length = r.size) (ho : offset < r.size) (hl : len ≤ r.size) :
    Gache.Ring.Get r offset len = some (Except.ok (
      if offset + len ≤ r.size then (r.buffer.drop offset).take len
      else r.buffer.drop offset ++ r.buffer.take (offset + len - r.size))) := by
  simp only [Gache.Ring.Get]
  rw [if_neg (by omega)]
  by_cases hc : offset + len ≤ r.size
  · rw [if_neg (by omega), if_pos (by omega), if_pos hc]
    have hslen : ((r.buffer.take (offset + len)).drop offset).length = len := by
      simp
      omega
    rw [Gache.goCopy_eq_src _ _ (by rw [hslen, List.length_replicate]), List.drop_take,
      Nat.add_sub_cancel_left]
  · rw [if_pos (by omega), if_pos (by omega),
      if_pos (⟨by omega, by simp [hlen]; omega⟩ : _ ∧ _), if_neg hc]
    have h1 : (r.buffer.drop offset).length = r.size - offset := by simp [hlen]
    rw [Gache.goCopy_of_le _ _ (by rw [h1, List.length_replicate]; omega), h1,
      List.drop_replicate]
    rw [Gache.writeCopy_append_left _ _ _ _ h1.symm (by simp [hlen]; omega)]
    rw [show len - (r.size - offset) = offset + len - r.size by omega]

/-- C6 witness: wrap read at offset 3, length 2 on a 4-byte buffer. -/
theorem C6_witness :
    Gache.Ring.Get ⟨[1, 2, 3, 4], 4, 0, none, none⟩ 3 2 = some (Except.ok (
      if 3 + 2 ≤ 4 then (([1, 2, 3, 4] : List Nat).drop 3).take 2
      else ([1, 2, 3, 4] : List Nat).drop 3 ++ ([1, 2, 3, 4] : List Nat).take (3 + 2 - 4)) ) :=
  C6_get_wraparound ⟨[1, 2, 3, 4], 4, 0, none, none⟩ 3 2 rfl (by decide) (by decide)

/-- C7 counterexample: the claim says `Get` fails with OutOfRange exactly
when offset ≥ capacity or length > capacity, but the code's only check is
`index > r.size`: at offset = capacity = 2 on the buffer [5,6] the call
succeeds and returns the byte at position 0 instead of failing. -/
theorem C7_counterexample :
    Gache.Ring.Get ⟨[5, 6], 2, 0, none, none⟩ 2 1 = some (Except.ok [5]) ∧
    Gache.Ring.Get ⟨[5, 6], 2, 0, none, none⟩ 2 1
      ≠ some (Except.error Gache.Err.bufferrOutOfRange) := by
  refine ⟨rfl, ?_⟩
  intro h
  rw [show Gache.Ring.Get ⟨[5, 6], 2, 0, none, none⟩ 2 1 = some (Except.ok [5]) from rfl] at h
  simp at h

/-- C7 amended: `Get` returns the OutOfRange error exactly when the offset is
strictly greater than the capacity; the length is never validated (an
excessive length either reads wrapped bytes or panics), and on the error
path no bytes are produced and the receiver is untouched. -/
theorem C7_amended_outofrange_iff (r : Gache.Ring.RingBuffer) (index dataSize : Nat) :
    Gache.Ring.Get r index dataSize
      = some (Except.error Gache.Err.bufferrOutOfRange) ↔ r.size < index := by
  constructor
  · intro h
    by_contra hn
    simp only [Gache.Ring.Get] at h
    rw [if_neg (by omega)] at h
    split at h
    · split at h
      · split at h
        · simp at h
        · cases h
      · cases h
    · split at h
      · simp at h
      · cases h
  · intro h
    simp only [Gache.Ring.Get]
    rw [if_pos h]

/-- C7 witness: offset 3 on a capacity-2 buffer is rejected. -/
theorem C7_witness :
    Gache.Ring.Get ⟨[5, 6], 2, 0, none, none⟩ 3 1
      = some (Except.error Gache.Err.bufferrOutOfRange) :=
  (C7_amended_outofrange_iff ⟨[5, 6], 2, 0, none, none⟩ 3 1).mpr (by decide)

/-- C9 counterexample: the claim says construction with capacity ≤ 0 fails
with InvalidConfig, but `NewRingBuffer` performs no validation: capacity 0
successfully produces a degenerate store with an empty byte region and
cursor 0 (and capacity -1 fails only with the runtime panic of `make`, not a
config error — no InvalidConfig error exists in the code). -/
theorem C9_counterexample :
    Gache.Ring.NewRingBuffer 0 = some ⟨[], 0, 0, none, none⟩ ∧
    Gache.Ring.NewRingBuffer (-1) = none :=
  ⟨rfl, rfl⟩

/-- C9 amended: construction succeeds exactly for capacity c ≥ 0, and every
produced store has a byte region of exactly c bytes, cursor 0, stored size
c, and nil index maps; c < 0 aborts with make's runtime panic and no
InvalidConfig validation or error exists. -/
theorem C9_amended_construction (c : Int) :
    ((0 : Int) ≤ c ↔ ∃ r, Gache.Ring.NewRingBuffer c = some r) ∧
    (∀ r, Gache.Ring.NewRingBuffer c = some r →
      (r.buffer.length : Int) = c ∧ r.currPosition = 0 ∧ r.size = c.toNat ∧
      r.blockIdx = none ∧ r.timeIdx = none) := by
  constructor
  · constructor
    · intro h
      refine ⟨⟨List.replicate c.toNat 0, c.toNat, 0, none, none⟩, ?_⟩
      simp only [Gache.Ring.NewRingBuffer]
      rw [if_neg (by omega)]
    · rintro ⟨r, h⟩
      simp only [Gache.Ring.NewRingBuffer] at h
      by_contra hn
      rw [if_pos (by omega)] at h
      cases h
  · intro r h
    simp only [Gache.Ring.NewRingBuffer] at h
    split at h
    · cases h
    · rename_i hc
      injection h with h2
      subst h2
      refine ⟨?_, rfl, rfl, rfl, rfl⟩
      rw [List.length_replicate]
      omega

/-- C9 witness: capacity 2 produces a two-byte region. -/
theorem C9_witness :
    (((List.replicate (2 : Int).toNat (0 : Nat)).length : Int)) = 2 :=
  ((C9_amended_construction 2).2
    ⟨List.replicate (2 : Int).toNat 0, (2 : Int).toNat, 0, none, none⟩ rfl).1

/-- C10: the index maps blockIdx and timeIdx are nil after construction and
stay nil across every reachable sequence of operations, in both buffer.go
(`Add`) and the draft file (`write` and `Write`, through which the draft's
gob-based `Add` writes); and `Get` reads nothing but the byte region and the
capacity, so lookups depend entirely on the caller-supplied offset and
length. -/
theorem C10_index_maps_unused :
    (∀ r : Gache.Ring.RingBuffer, Gache.Ring.Reachable r →
      r.blockIdx = none ∧ r.timeIdx = none) ∧
    (∀ s : Gache.Draft.RingBuffer, Gache.Draft.Reachable s →
      s.blockIdx = none ∧ s.timeIdx = none) ∧
    (∀ (r r2 : Gache.Ring.RingBuffer) (i d : Nat), r.buffer = r2.buffer →
      r.size = r2.size → Gache.Ring.Get r i d = Gache.Ring.Get r2 i d) := by
  refine ⟨?_, ?_, ?_⟩
  · intro r h
    induction h with
    | base c r hc =>
      simp only [Gache.Ring.NewRingBuffer] at hc
      split at hc
      · cases hc
      · injection hc with h2
        subst h2
        exact ⟨rfl, rfl⟩
    | step r b r2 e hr ha ih =>
      have hs := Gache.Ring.Add_state _ _ _ _ ha
      exact ⟨hs.2.1.trans ih.1, hs.2.2.trans ih.2⟩
  · intro s h
    induction h with
    | base c r hc =>
      simp only [Gache.Draft.NewRingBuffer] at hc
      split at hc
      · cases hc
      · injection hc with h2
        subst h2
        exact ⟨rfl, rfl⟩
    | stepw r dl r2 e hr hw ih =>
      cases e with
      | error e2 =>
        obtain ⟨rfl, -, -⟩ := Gache.Draft.write_error _ _ _ _ hw
        exact ih
      | ok m =>
        have W := Gache.Draft.write_ok _ _ _ _ hw
        exact ⟨W.2.2.2.2.2.1.trans ih.1, W.2.2.2.2.2.2.1.trans ih.2⟩
    | stepW r b r2 e hr hw ih =>
      have hs := Gache.Draft.Write_state _ _ _ _ hw
      exact ⟨hs.2.1.trans ih.1, hs.2.2.trans ih.2⟩
  · intro r r2 i d h1 h2
    simp only [Gache.Ring.Get, h1, h2]

/-- C10 witness: freshly constructed stores have nil maps, and `Get` ignores
cursor and index fields. -/
theorem C10_witness :
    ((⟨[0, 0, 0, 0], 4, 0, none, none⟩ : Gache.Ring.RingBuffer).blockIdx = none ∧
      (⟨[0, 0, 0, 0], 4, 0, none, none⟩ : Gache.Ring.RingBuffer).timeIdx = none) ∧
    ((⟨[0, 0], 2, 0, 0, none, none⟩ : Gache.Draft.RingBuffer).blockIdx = none ∧
      (⟨[0, 0], 2, 0, 0, none, none⟩ : Gache.Draft.RingBuffer).timeIdx = none) ∧
    Gache.Ring.Get ⟨[9], 1, 0, none, none⟩ 0 1
      = Gache.Ring.Get ⟨[9], 1, 1, some [], none⟩ 0 1 :=
  ⟨C10_index_maps_unused.1 _ (Gache.Ring.Reachable.base 4 _ rfl),
   C10_index_maps_unused.2.1 _ (Gache.Draft.Reachable.base 2 _ rfl),
   C10_index_maps_unused.2.2 ⟨[9], 1, 0, none, none⟩ ⟨[9], 1, 1, some [], none⟩ 0 1 rfl rfl⟩

/-- C3: in the draft's header-framing path, a successful `Write b` reports
`len b + 8` bytes written, yet the cursor advances by `len b + 24` modulo
the buffer size — each of the two internal `write` calls (8-byte header,
then payload) adds `BlockHeaderLenSize` to its cursor advance without
writing those bytes — while at most `8 + len b` buffer positions change;
in the non-wrapping case the two 8-byte ranges [head+8, head+16) and
[head+16+len b, head+24+len b) are left with their previous, unwritten
contents. -/
theorem C3_write_advance_exceeds_copy (r : Gache.Draft.RingBuffer) (b : List Nat)
    (r2 : Gache.Draft.RingBuffer) (n : Nat)
    (h : Gache.Draft.Write r b = some (r2, Except.ok n)) :
    n = b.length + 8 ∧
    r2.currPosition = (r.currPosition + (b.length + 24)) % r.size ∧
    Gache.diffCount r.buffer r2.buffer ≤ 8 + b.length ∧
    (r.currPosition + (b.length + 24) ≤ r.size →
      (∀ i, r.currPosition + 8 ≤ i → i < r.currPosition + 16 →
        r2.buffer[i]? = r.buffer[i]?) ∧
      (∀ i, r.currPosition + 16 + b.length ≤ i → i < r.currPosition + (24 + b.length) →
        r2.buffer[i]? = r.buffer[i]?)) := by
  simp only [Gache.Draft.Write, Gache.BlockHeaderLenSize] at h
  split at h
  · simp at h
  · rename_i hle
    cases hw1 : Gache.Draft.write r (Gache.putLE 8 b.length) with
    | none => rw [hw1] at h; cases h
    | some pr =>
      obtain ⟨ra, ea⟩ := pr
      rw [hw1] at h
      cases ea with
      | error e1 => simp at h
      | ok m1 =>
        simp only [] at h
        cases hw2 : Gache.Draft.write ra b with
        | none => rw [hw2] at h; cases h
        | some pr2 =>
          obtain ⟨rb, eb⟩ := pr2
          rw [hw2] at h
          cases eb with
          | error e2 => simp at h
          | ok m2 =>
            simp only [Option.some.injEq, Prod.mk.injEq, Except.ok.injEq] at h
            obtain ⟨rfl, rfl⟩ := h
            have W1 := Gache.Draft.write_ok _ _ _ _ hw1
            rw [Gache.putLE_length] at W1
            have W2 := Gache.Draft.write_ok _ _ _ _ hw2
            obtain ⟨-, hsz1, hcur1, hsize1, -, -, -, hblen1, hdiff1, hreg1⟩ := W1
            obtain ⟨-, hsz2, hcur2, hsize2, -, -, -, hblen2, hdiff2, hreg2⟩ := W2
            refine ⟨rfl, ?_, ?_, ?_⟩
            · rw [hcur2, hcur1, hsize1, Nat.mod_add_mod]
              congr 1
              omega
            · refine le_trans (Gache.diffCount_triangle _ _ _ hblen1.symm) ?_
              omega
            · intro hsc
              have hc16 : r.currPosition + 16 < r.size := by omega
              have hra : ra.currPosition = r.currPosition + 16 := by
                rw [hcur1, Nat.mod_eq_of_lt (by omega)]
              constructor
              · intro i hi1 hi2
                have e1 := hreg1 (by omega) i (Or.inr (by omega))
                have e2 := hreg2 (by rw [hra, hsize1]; omega) i (Or.inl (by rw [hra]; omega))
                exact e2.trans e1
              · intro i hi1 hi2
                have e1 := hreg1 (by omega) i (Or.inr (by omega))
                have e2 := hreg2 (by rw [hra, hsize1]; omega) i (Or.inr (by rw [hra]; omega))
                exact e2.trans e1

/-- C3 witness: writing the 1-byte payload [9] into a fresh 32-byte draft
buffer reports 9 bytes, moves the cursor to 25, and changes at most 9
positions. -/
theorem C3_witness :
    (9 : Nat) = 1 + 8 ∧
    (25 : Nat) = (0 + (1 + 24)) % 32 ∧
    Gache.diffCount (List.replicate 32 0)
      [1, 0, 0, 0, 0, 0, 0, 0, 0, 0, 0, 0, 0, 0, 0, 0,
       9, 0, 0, 0, 0, 0, 0, 0, 0, 0, 0, 0, 0, 0, 0, 0] ≤ 8 + 1 := by
  have H := C3_write_advance_exceeds_copy ⟨List.replicate 32 0, 32, 0, 0, none, none⟩ [9]
    ⟨[1, 0, 0, 0, 0, 0, 0, 0, 0, 0, 0, 0, 0, 0, 0, 0,
      9, 0, 0, 0, 0, 0, 0, 0, 0, 0, 0, 0, 0, 0, 0, 0], 32, 25, 0, none, none⟩ 9 rfl
  exact ⟨H.1, H.2.1, H.2.2.1⟩

/-- C8: the spec-modelled codec `encode` (see its definition: the codec is
absent from src) always succeeds — it is a total, deterministic function —
and lays the frame out as a 24-byte header of three 8-byte little-endian
unsigned fields holding the total payload length, the creation timestamp
and the key length, followed by the key bytes and then the value bytes,
whenever the quantities fit the fixed-width fields. -/
theorem C8_encode_layout (key value : List Nat) (createdAt : Nat)
    (h1 : 24 + key.length + value.length < 2 ^ 64) (h2 : createdAt < 2 ^ 64) :
    (Gache.encode key value createdAt).length = 24 + key.length + value.length ∧
    Gache.fromLE ((Gache.encode key value createdAt).take 8) = key.length + value.length ∧
    Gache.fromLE (((Gache.encode key value createdAt).drop 8).take 8) = createdAt ∧
    Gache.fromLE (((Gache.encode key value createdAt).drop 16).take 8) = key.length ∧
    (Gache.encode key value createdAt).drop 24 = key ++ value ∧
    (∀ bb ∈ (Gache.encode key value createdAt).take 24, bb < 256) := by
  have hpow : (256 : Nat) ^ 8 = 2 ^ 64 := by norm_num
  have he1 : Gache.encode key value createdAt
      = Gache.putLE 8 (key.length + value.length)
        ++ (Gache.putLE 8 createdAt ++ (Gache.putLE 8 key.length ++ (key ++ value))) := by
    simp [Gache.encode, List.append_assoc]
  have he2 : Gache.encode key value createdAt
      = (Gache.putLE 8 (key.length + value.length) ++ Gache.putLE 8 createdAt)
        ++ (Gache.putLE 8 key.length ++ (key ++ value)) := by
    simp [Gache.encode, List.append_assoc]
  have he3 : Gache.encode key value createdAt
      = ((Gache.putLE 8 (key.length + value.length) ++ Gache.putLE 8 createdAt)
          ++ Gache.putLE 8 key.length) ++ (key ++ value) := by
    simp [Gache.encode, List.append_assoc]
  have l16 : (Gache.putLE 8 (key.length + value.length) ++ Gache.putLE 8 createdAt).length
      = 16 := by
    simp [Gache.putLE_length]
  have l24 : ((Gache.putLE 8 (key.length + value.length) ++ Gache.putLE 8 createdAt)
      ++ Gache.putLE 8 key.length).length = 24 := by
    simp [Gache.putLE_length]
  refine ⟨?_, ?_, ?_, ?_, ?_, ?_⟩
  · simp [Gache.encode, Gache.putLE_length]
    omega
  · rw [he1, List.take_left' (Gache.putLE_length 8 _), Gache.fromLE_putLE, hpow,
      Nat.mod_eq_of_lt (by omega)]
  · rw [he1, List.drop_left' (Gache.putLE_length 8 _),
      List.take_left' (Gache.putLE_length 8 _), Gache.fromLE_putLE, hpow,
      Nat.mod_eq_of_lt (by omega)]
  · rw [he2, List.drop_left' l16, List.take_left' (Gache.putLE_length 8 _),
      Gache.fromLE_putLE, hpow, Nat.mod_eq_of_lt (by omega)]
  · rw [he3, List.drop_left' l24]
  · rw [he3, List.take_left' l24]
    intro bb hb
    rcases List.mem_append.mp hb with hb | hb
    · rcases List.mem_append.mp hb with hb | hb
      · exact Gache.putLE_mem_lt _ _ _ hb
      · exact Gache.putLE_mem_lt _ _ _ hb
    · exact Gache.putLE_mem_lt _ _ _ hb

/-- C8 witness: the frame for key [1], value [2,3], timestamp 5 carries the
timestamp in its second header field and the payload after byte 24. -/
theorem C8_witness :
    Gache.fromLE (((Gache.encode [1] [2, 3] 5).drop 8).take 8) = 5 ∧
    (Gache.encode [1] [2, 3] 5).drop 24 = [1] ++ [2, 3] := by
  have H := C8_encode_layout [1] [2, 3] 5 (by norm_num) (by norm_num)
  exact ⟨H.2.2.1, H.2.2.2.2.1⟩
